import Mathlib

/-!
Shallow embedding of the reverse-mode automatic-differentiation engine
(`autodiff.cpp`): the `Var` computation-graph node, the graph-building
operations (`op_add` … `op_log`), the recursive topological sort
(`Var::topo_sort`), backpropagation (`Var::backward`) and gradient reset
(`Var::zero_grad`).

Modelling choices:
* The C++ pointer heap becomes `Heap := List Var`; a `Var*` becomes the
  node's index (`Nat`) in this list.  `new Var(v)` appends a node.
* `double` becomes `ℚ`.  The transcendental functions `std::sin`,
  `std::cos`, `std::exp`, `std::log` and `std::pow` have no counterpart on
  `ℚ`; they are passed in as an abstract bundle `MathFns` of pure
  functions, exactly as the C++ code treats them as opaque pure functions.
* An edge's `std::function<double()>` closure dereferences captured
  pointers at call time; here it becomes a function of the current value
  and gradient assignments `(Nat → ℚ) → (Nat → ℚ) → ℚ`.
* The unbounded C++ recursion of `topo_sort` and `zero_grad_helper` is
  given explicit fuel; `Heap.length + 1` fuel is proved sufficient on
  well-formed (DAG-by-construction) heaps.
-/

set_option allowUnsafeReducibility true

attribute [local semireducible] Rat.add Rat.mul Rat.div Rat.sub Rat.neg
  Rat.inv Rat.ofScientific

namespace Autodiff

/-- Mirrors `struct BackwardEdge { Var* input; std::function<double()> grad_fn; }`.
The closure receives the current values and gradients of the heap, the
way the C++ closure reads `result->grad`, `a->val`, … through captured
pointers at call time. -/
structure BackwardEdge where
  input : Nat
  grad_fn : (Nat → ℚ) → (Nat → ℚ) → ℚ

/-- Mirrors `struct Var { double val; double grad; std::vector<BackwardEdge> backward_edges; }`. -/
structure Var where
  val : ℚ
  grad : ℚ
  backward_edges : List BackwardEdge

/-- The allocation arena: node `i` is `h[i]`. -/
abbrev Heap := List Var

/-- Placeholder returned when dereferencing an index that was never
allocated (the C++ program never does this on API-built graphs). -/
def defaultVar : Var := { val := 0, grad := 0, backward_edges := [] }

/-- Dereference node `i`. -/
def getN (h : Heap) (i : Nat) : Var := (h.get? i).getD defaultVar

/-- Write node `i` through an update function (out-of-range writes are
no-ops, mirroring that the C++ program never performs them). -/
def updNode (h : Heap) (i : Nat) (f : Var → Var) : Heap := h.set i (f (getN h i))

/-- Backward edges of node `i`. -/
def nodeEdges (h : Heap) (i : Nat) : List BackwardEdge := (getN h i).backward_edges

/-- Current value assignment of the heap, as read by edge closures. -/
def valsOf (h : Heap) : Nat → ℚ := fun j => (getN h j).val

/-- Current gradient assignment of the heap, as read by edge closures. -/
def gradsOf (h : Heap) : Nat → ℚ := fun j => (getN h j).grad

/-- Mirrors `new Var(v)`: `Var(double v) : val(v), grad(0.0) {}`. -/
def newVar (h : Heap) (v : ℚ) : Heap × Nat :=
  (h ++ [{ val := v, grad := 0, backward_edges := [] }], h.length)

/-- The `leaf`/`Var(value)` constructor exposed to the host. -/
def leaf (h : Heap) (v : ℚ) : Heap × Nat := newVar h v

/-- Mirrors `Var::add_edge`: `backward_edges.emplace_back(input, grad_fn)`. -/
def add_edge (h : Heap) (i : Nat) (input : Nat)
    (grad_fn : (Nat → ℚ) → (Nat → ℚ) → ℚ) : Heap :=
  updNode h i fun n =>
    { n with backward_edges := n.backward_edges ++ [⟨input, grad_fn⟩] }

/-- The opaque scalar math functions used by `op_pow`, `op_sin`, `op_cos`,
`op_exp`, `op_log` (`std::pow`, `std::sin`, …), treated as pure functions. -/
structure MathFns where
  sinF : ℚ → ℚ
  cosF : ℚ → ℚ
  expF : ℚ → ℚ
  logF : ℚ → ℚ
  powF : ℚ → ℚ → ℚ

/-- Mirrors `op_add`. -/
def op_add (h : Heap) (a b : Nat) : Heap × Nat :=
  let p := newVar h ((getN h a).val + (getN h b).val)
  let r := p.2
  let h1 := add_edge p.1 r a (fun _ grads => grads r * 1)
  let h2 := add_edge h1 r b (fun _ grads => grads r * 1)
  (h2, r)

/-- Mirrors `op_sub`. -/
def op_sub (h : Heap) (a b : Nat) : Heap × Nat :=
  let p := newVar h ((getN h a).val - (getN h b).val)
  let r := p.2
  let h1 := add_edge p.1 r a (fun _ grads => grads r * 1)
  let h2 := add_edge h1 r b (fun _ grads => grads r * -1)
  (h2, r)

/-- Mirrors `op_mul`: edge closures read `b->val` / `a->val` at call time. -/
def op_mul (h : Heap) (a b : Nat) : Heap × Nat :=
  let p := newVar h ((getN h a).val * (getN h b).val)
  let r := p.2
  let h1 := add_edge p.1 r a (fun vals grads => grads r * vals b)
  let h2 := add_edge h1 r b (fun vals grads => grads r * vals a)
  (h2, r)

/-- Mirrors `op_div`. -/
def op_div (h : Heap) (a b : Nat) : Heap × Nat :=
  let p := newVar h ((getN h a).val / (getN h b).val)
  let r := p.2
  let h1 := add_edge p.1 r a (fun vals grads => grads r / vals b)
  let h2 := add_edge h1 r b
    (fun vals grads => grads r * (-(vals a) / (vals b * vals b)))
  (h2, r)

/-- Mirrors `op_neg`. -/
def op_neg (h : Heap) (a : Nat) : Heap × Nat :=
  let p := newVar h (-(getN h a).val)
  let h1 := add_edge p.1 p.2 a (fun _ grads => grads p.2 * -1)
  (h1, p.2)

/-- Mirrors `op_pow` (`n` a plain exponent, not differentiated). -/
def op_pow (M : MathFns) (h : Heap) (a : Nat) (n : ℚ) : Heap × Nat :=
  let p := newVar h (M.powF (getN h a).val n)
  let h1 := add_edge p.1 p.2 a
    (fun vals grads => grads p.2 * n * M.powF (vals a) (n - 1))
  (h1, p.2)

/-- Mirrors `op_sin`. -/
def op_sin (M : MathFns) (h : Heap) (a : Nat) : Heap × Nat :=
  let p := newVar h (M.sinF (getN h a).val)
  let h1 := add_edge p.1 p.2 a (fun vals grads => grads p.2 * M.cosF (vals a))
  (h1, p.2)

/-- Mirrors `op_cos`. -/
def op_cos (M : MathFns) (h : Heap) (a : Nat) : Heap × Nat :=
  let p := newVar h (M.cosF (getN h a).val)
  let h1 := add_edge p.1 p.2 a
    (fun vals grads => grads p.2 * (-(M.sinF (vals a))))
  (h1, p.2)

/-- Mirrors `op_exp`: the derivative closure reads `result->val`. -/
def op_exp (M : MathFns) (h : Heap) (a : Nat) : Heap × Nat :=
  let p := newVar h (M.expF (getN h a).val)
  let h1 := add_edge p.1 p.2 a (fun vals grads => grads p.2 * vals p.2)
  (h1, p.2)

/-- Mirrors `op_log`. -/
def op_log (M : MathFns) (h : Heap) (a : Nat) : Heap × Nat :=
  let p := newVar h (M.logF (getN h a).val)
  let h1 := add_edge p.1 p.2 a (fun vals grads => grads p.2 / vals a)
  (h1, p.2)

/-- Mirrors the recursive `Var::topo_sort(order, visited)`; the state is
`(order, visited)`, the `for` loop over `backward_edges` is a fold, and
the recursion carries explicit fuel (proved sufficient on well-formed
heaps below). -/
def topo_sort (h : Heap) : Nat → Nat → List Nat × List Nat → List Nat × List Nat
  | 0, _, s => s
  | f + 1, i, s =>
    if i ∈ s.2 then s
    else
      let s1 := (nodeEdges h i).foldl (fun t e => topo_sort h f e.input t)
        (s.1, i :: s.2)
      (s1.1 ++ [i], s1.2)

/-- The `for (auto edge : backward_edges) edge.input->topo_sort(...)` loop,
as a standalone function for reasoning. -/
def topo_sortList (h : Heap) (fuel : Nat) (es : List BackwardEdge)
    (s : List Nat × List Nat) : List Nat × List Nat :=
  es.foldl (fun t e => topo_sort h fuel e.input t) s

/-- The order computed inside `Var::backward` by
`std::vector<Var*> order; std::set<Var*> visited; topo_sort(order, visited);`. -/
def topo_order (h : Heap) (root : Nat) : List Nat :=
  (topo_sort h (h.length + 1) root ([], [])).1

/-- One step of the inner loop of `Var::backward`:
`double grad_contribution = edge.grad_fn(); edge.input->grad += grad_contribution;`. -/
def applyEdge (h : Heap) (e : BackwardEdge) : Heap :=
  let contribution := e.grad_fn (valsOf h) (gradsOf h)
  updNode h e.input fun n => { n with grad := n.grad + contribution }

/-- The body of the reverse loop of `Var::backward` for one node. -/
def processNode (h : Heap) (i : Nat) : Heap :=
  (getN h i).backward_edges.foldl applyEdge h

/-- Mirrors `Var::backward`: topological sort, seed `grad = 1.0`, then
propagate in reverse topological order. -/
def backward (h : Heap) (root : Nat) : Heap :=
  let order := topo_order h root
  let h1 := updNode h root fun n => { n with grad := 1 }
  order.reverse.foldl processNode h1

/-- Mirrors the recursive `Var::zero_grad_helper(visited)` with explicit
fuel; the `for` loop over `backward_edges` is a fold. -/
def zero_grad_helper : Nat → Nat → Heap × List Nat → Heap × List Nat
  | 0, _, s => s
  | f + 1, i, s =>
    if i ∈ s.2 then s
    else
      let h1 := updNode s.1 i fun n => { n with grad := 0 }
      (nodeEdges h1 i).foldl (fun t e => zero_grad_helper f e.input t)
        (h1, i :: s.2)

/-- The `for (auto edge : backward_edges) edge.input->zero_grad_helper(...)`
loop, as a standalone function for reasoning. -/
def zero_grad_helperList (fuel : Nat) (es : List BackwardEdge)
    (s : Heap × List Nat) : Heap × List Nat :=
  es.foldl (fun t e => zero_grad_helper fuel e.input t) s

/-- Mirrors `Var::zero_grad`: fresh visited set, then the helper. -/
def zero_grad (h : Heap) (root : Nat) : Heap :=
  (zero_grad_helper (h.length + 1) root (h, [])).1

/-- Heap `h'` arises from `h` by writes that may change gradients only: the
length, every node's value and every node's edge list are unchanged. -/
def PresVE (h h' : Heap) : Prop :=
  h'.length = h.length ∧
    ∀ j, (getN h' j).val = (getN h j).val ∧
      (getN h' j).backward_edges = (getN h j).backward_edges

/-!  Concrete example graphs taken from the spec's testable properties. -/

/-- Graph of the composite example: `x = leaf 2` at index 0, `y = leaf 3`
at index 1, `add(x, y)` at index 2, `f = mul(add(x, y), x)` at index 3. -/
def exG1 : Heap :=
  let s0 := leaf [] 2
  let s1 := leaf s0.1 3
  let s2 := op_add s1.1 s0.2 s1.2
  (op_mul s2.1 s2.2 s0.2).1

/-- Diamond graph: `x = leaf 3` at index 0, `y = mul(x, x)` at index 1. -/
def exG2 : Heap :=
  let s0 := leaf [] 3
  (op_mul s0.1 s0.2 s0.2).1

/-- Two-node chain: `x = leaf 0` at index 0, `f = neg(x)` at index 1. -/
def exG3 : Heap :=
  let s0 := leaf [] 0
  (op_neg s0.1 s0.2).1

/-- Product graph: `x = leaf 2` at index 0, `y = leaf 3` at index 1,
`f = mul(x, y)` at index 2. -/
def exG4 : Heap :=
  let s0 := leaf [] 2
  let s1 := leaf s0.1 3
  (op_mul s1.1 s0.2 s1.2).1

/-- Quotient graph: `a = leaf va` at index 0, `b = leaf vb` at index 1,
`f = div(a, b)` at index 2. -/
def divG (va vb : ℚ) : Heap :=
  let s0 := leaf [] va
  let s1 := leaf s0.1 vb
  (op_div s1.1 s0.2 s1.2).1

/-- The DAG-by-construction well-formedness invariant of heaps built
through the public API: every backward edge points from a newer node to a
strictly older (smaller-index) node, so the edge relation is acyclic. -/
def WF (h : Heap) : Prop :=
  ∀ i, i < h.length → ∀ e ∈ nodeEdges h i, e.input < i

instance (h : Heap) : Decidable (WF h) :=
  inferInstanceAs
    (Decidable (∀ i, i < h.length → ∀ e ∈ nodeEdges h i, e.input < i))

/-- Reachability along backward edges: the nodes `backward`/`zero_grad`
ever touch starting from a root. -/
inductive Reach (h : Heap) : Nat → Nat → Prop where
  | refl (i : Nat) : Reach h i i
  | tail {i j : Nat} {e : BackwardEdge} :
      Reach h i j → e ∈ nodeEdges h j → Reach h i e.input

/-- A list of nodes is dependency-closed position-wise: every operand of
every listed node occurs strictly earlier in the list. -/
def PrefClosed (h : Heap) (L : List Nat) : Prop :=
  ∀ l1 c l2, L = l1 ++ c :: l2 → ∀ e ∈ nodeEdges h c, e.input ∈ l1

/-- One public API call, as dispatched by the Python binding layer
(`Var_init`, `Var_add`, …, `Var_backward`, `Var_zero_grad`). -/
inductive OpCall where
  | mkLeaf (v : ℚ)
  | callAdd (a b : Nat)
  | callSub (a b : Nat)
  | callMul (a b : Nat)
  | callDiv (a b : Nat)
  | callNeg (a : Nat)
  | callPow (a : Nat) (n : ℚ)
  | callSin (a : Nat)
  | callCos (a : Nat)
  | callExp (a : Nat)
  | callLog (a : Nat)
  | callBackward (root : Nat)
  | callZeroGrad (root : Nat)

/-- Effect of one public API call on the heap. -/
def applyOp (M : MathFns) (h : Heap) : OpCall → Heap
  | .mkLeaf v => (leaf h v).1
  | .callAdd a b => (op_add h a b).1
  | .callSub a b => (op_sub h a b).1
  | .callMul a b => (op_mul h a b).1
  | .callDiv a b => (op_div h a b).1
  | .callNeg a => (op_neg h a).1
  | .callPow a n => (op_pow M h a n).1
  | .callSin a => (op_sin M h a).1
  | .callCos a => (op_cos M h a).1
  | .callExp a => (op_exp M h a).1
  | .callLog a => (op_log M h a).1
  | .callBackward root => backward h root
  | .callZeroGrad root => zero_grad h root

/-- Effect of a whole sequence of public API calls. -/
def applyOps (M : MathFns) (h : Heap) (cs : List OpCall) : Heap :=
  cs.foldl (applyOp M) h

/-- Invariant carried by the topological-sort state `(order, visited)`:
the order has no duplicates, ordered nodes are visited, and the order is
dependency-closed. -/
def TopoInv (h : Heap) (o v : List Nat) : Prop :=
  o.Nodup ∧ (∀ x ∈ o, x ∈ v) ∧ PrefClosed h o

/-- Postcondition of one `topo_sort` call started at node `i` in state
`(o, v)`: the order grows by a fresh block `d` of nodes reachable from
`i` (all of index at most `i`), the visited set grows by exactly `d`, the
invariant is maintained, and `i` ends up in the order. -/
def TopoPost (h : Heap) (i : Nat) (o v : List Nat)
    (r : List Nat × List Nat) : Prop :=
  ∃ d, r.1 = o ++ d ∧ (∀ x, x ∈ r.2 ↔ x ∈ v ∨ x ∈ d) ∧ (∀ x ∈ d, x ∉ v) ∧
    (∀ x ∈ d, x ≤ i) ∧ (∀ x ∈ d, Reach h i x) ∧ r.1.Nodup ∧
    PrefClosed h r.1 ∧ i ∈ r.1

/-- Postcondition of the edge loop of `topo_sort` over `es`, all of whose
targets lie strictly below the bound `b`. -/
def TopoListPost (h : Heap) (b : Nat) (es : List BackwardEdge)
    (o v : List Nat) (r : List Nat × List Nat) : Prop :=
  ∃ d, r.1 = o ++ d ∧ (∀ x, x ∈ r.2 ↔ x ∈ v ∨ x ∈ d) ∧ (∀ x ∈ d, x ∉ v) ∧
    (∀ x ∈ d, x < b) ∧ (∀ x ∈ d, ∃ e ∈ es, Reach h e.input x) ∧
    r.1.Nodup ∧ PrefClosed h r.1 ∧ ∀ e ∈ es, e.input ∈ r.1

/-- Postcondition of one `zero_grad_helper` call at node `i`: the visited
set grows by a fresh block `d` of nodes reachable from `i`, exactly the
`d`-gradients become 0, `i` ends up visited, and `d` is edge-closed into
the visited set.  `h0` is the ambient heap supplying the (unchanging)
edge structure. -/
def ZgPost (h0 : Heap) (i : Nat) (st r : Heap × List Nat) : Prop :=
  ∃ d : List Nat, (∀ x, x ∈ r.2 ↔ x ∈ st.2 ∨ x ∈ d) ∧ (∀ x ∈ d, x ∉ st.2) ∧
    (∀ x ∈ d, Reach h0 i x) ∧
    (∀ j, (getN r.1 j).grad = if j ∈ d then 0 else (getN st.1 j).grad) ∧
    i ∈ r.2 ∧ ∀ x ∈ d, ∀ e ∈ nodeEdges h0 x, e.input ∈ r.2

/-- Postcondition of the edge loop of `zero_grad_helper`. -/
def ZgListPost (h0 : Heap) (es : List BackwardEdge) (st r : Heap × List Nat) :
    Prop :=
  ∃ d : List Nat, (∀ x, x ∈ r.2 ↔ x ∈ st.2 ∨ x ∈ d) ∧ (∀ x ∈ d, x ∉ st.2) ∧
    (∀ x ∈ d, ∃ e ∈ es, Reach h0 e.input x) ∧
    (∀ j, (getN r.1 j).grad = if j ∈ d then 0 else (getN st.1 j).grad) ∧
    (∀ e ∈ es, e.input ∈ r.2) ∧ ∀ x ∈ d, ∀ e ∈ nodeEdges h0 x, e.input ∈ r.2

/-!  Basic facts about heap reads and writes. -/

theorem getN_of_le (h : Heap) (i : Nat) (hi : h.length ≤ i) :
    getN h i = defaultVar := by
  simp [getN, List.getElem?_eq_none hi]

theorem getN_lt (h : Heap) (i : Nat) (hi : i < h.length) :
    h[i]? = some (getN h i) := by
  simp [getN, List.getElem?_eq_getElem hi]

theorem getN_append_lt (h l : Heap) (i : Nat) (hi : i < h.length) :
    getN (h ++ l) i = getN h i := by
  simp [getN, List.getElem?_append_left hi]

theorem getN_append_len (h : Heap) (n : Var) :
    getN (h ++ [n]) h.length = n := by
  simp [getN, List.getElem?_concat_length]

theorem length_updNode (h : Heap) (i : Nat) (f : Var → Var) :
    (updNode h i f).length = h.length := by
  simp [updNode]

theorem getN_updNode_self (h : Heap) (i : Nat) (f : Var → Var)
    (hi : i < h.length) : getN (updNode h i f) i = f (getN h i) := by
  simp [updNode, getN, List.getElem?_set_eq_of_lt _ hi]

theorem getN_updNode_ne (h : Heap) (i j : Nat) (f : Var → Var)
    (hj : j ≠ i) : getN (updNode h i f) j = getN h j := by
  simp [updNode, getN, List.getElem?_set_ne (Ne.symm hj)]

theorem updNode_of_le (h : Heap) (i : Nat) (f : Var → Var)
    (hi : h.length ≤ i) : updNode h i f = h := by
  simp [updNode, List.set_eq_of_length_le hi]

theorem getN_updNode (h : Heap) (i j : Nat) (f : Var → Var) :
    getN (updNode h i f) j =
      if j = i ∧ j < h.length then f (getN h j) else getN h j := by
  by_cases hj : j = i
  · subst hj
    by_cases hl : j < h.length
    · simp [hl, getN_updNode_self h j f hl]
    · simp [hl, updNode_of_le h j f (Nat.le_of_not_lt hl)]
  · simp [hj, getN_updNode_ne h i j f hj]

theorem length_newVar (h : Heap) (v : ℚ) :
    (newVar h v).1.length = h.length + 1 := by
  simp [newVar]

theorem getN_newVar_lt (h : Heap) (v : ℚ) (i : Nat) (hi : i < h.length) :
    getN (newVar h v).1 i = getN h i := getN_append_lt h _ i hi

theorem length_add_edge (h : Heap) (i a : Nat)
    (fn : (Nat → ℚ) → (Nat → ℚ) → ℚ) :
    (add_edge h i a fn).length = h.length := length_updNode h i _

theorem getN_add_edge_ne (h : Heap) (i j a : Nat)
    (fn : (Nat → ℚ) → (Nat → ℚ) → ℚ) (hj : j ≠ i) :
    getN (add_edge h i a fn) j = getN h j := getN_updNode_ne h i j _ hj

theorem PresVE.refl (h : Heap) : PresVE h h := ⟨rfl, fun _ => ⟨rfl, rfl⟩⟩

theorem PresVE.trans {h1 h2 h3 : Heap} (a : PresVE h1 h2) (b : PresVE h2 h3) :
    PresVE h1 h3 :=
  ⟨b.1.trans a.1, fun j =>
    ⟨(b.2 j).1.trans (a.2 j).1, (b.2 j).2.trans (a.2 j).2⟩⟩

/-- A write that only changes the `grad` field preserves values, edges
and length everywhere. -/
theorem presVE_updNode (h : Heap) (i : Nat) (f : Var → Var)
    (hval : ∀ n, (f n).val = n.val)
    (hed : ∀ n, (f n).backward_edges = n.backward_edges) :
    PresVE h (updNode h i f) := by
  refine ⟨length_updNode h i f, fun j => ?_⟩
  rw [getN_updNode h i j f]
  split
  · exact ⟨hval _, hed _⟩
  · exact ⟨rfl, rfl⟩

theorem presVE_applyEdge (h : Heap) (e : BackwardEdge) :
    PresVE h (applyEdge h e) := by
  show PresVE h (updNode h e.input fun n =>
    { n with grad := n.grad + e.grad_fn (valsOf h) (gradsOf h) })
  exact presVE_updNode h e.input
    (fun n => { n with grad := n.grad + e.grad_fn (valsOf h) (gradsOf h) })
    (fun _ => rfl) (fun _ => rfl)

/-- Any fold of gradient-only writes preserves values, edges and length. -/
theorem presVE_foldl {β : Type} (step : Heap → β → Heap)
    (hstep : ∀ h b, PresVE h (step h b)) :
    ∀ (l : List β) (h : Heap), PresVE h (l.foldl step h) := by
  intro l
  induction l with
  | nil => exact fun h => PresVE.refl h
  | cons b l ih => exact fun h => (hstep h b).trans (ih (step h b))

theorem presVE_processNode (h : Heap) (i : Nat) :
    PresVE h (processNode h i) :=
  presVE_foldl applyEdge presVE_applyEdge _ h

/-- Backpropagation (`Var::backward`) never changes a value, an edge list or the heap
length: it only writes gradients. -/
theorem presVE_backward (h : Heap) (root : Nat) :
    PresVE h (backward h root) := by
  show PresVE h ((topo_order h root).reverse.foldl processNode
    (updNode h root fun n => { n with grad := 1 }))
  exact (presVE_updNode h root (fun n => { n with grad := 1 })
      (fun _ => rfl) (fun _ => rfl)).trans
    (presVE_foldl processNode presVE_processNode _ _)

/-- The reset helper `Var::zero_grad_helper` only writes gradients. -/
theorem presVE_zero_grad_helper :
    ∀ (fuel i : Nat) (s : Heap × List Nat),
      PresVE s.1 (zero_grad_helper fuel i s).1 := by
  intro fuel
  induction fuel with
  | zero => exact fun i s => PresVE.refl s.1
  | succ f ih =>
    have hlist : ∀ (es : List BackwardEdge) (t : Heap × List Nat),
        PresVE t.1
          ((es.foldl (fun t e => zero_grad_helper f e.input t) t)).1 := by
      intro es
      induction es with
      | nil => exact fun t => PresVE.refl t.1
      | cons e es ihe =>
        exact fun t => (ih e.input t).trans (ihe (zero_grad_helper f e.input t))
    intro i s
    simp only [zero_grad_helper]
    by_cases hm : i ∈ s.2
    · simp only [hm, if_true]
      exact PresVE.refl s.1
    · simp only [hm, if_false]
      exact (presVE_updNode s.1 i (fun n => { n with grad := 0 })
          (fun _ => rfl) (fun _ => rfl)).trans
        (hlist _ (updNode s.1 i fun n => { n with grad := 0 }, i :: s.2))

/-- The reset entry point `Var::zero_grad` only writes gradients. -/
theorem presVE_zero_grad (h : Heap) (root : Nat) :
    PresVE h (zero_grad h root) :=
  presVE_zero_grad_helper (h.length + 1) root (h, [])

/-- Frame property of the common shape of the binary graph builders:
allocate one fresh node, then attach two edges to it.  Nodes that already
existed are untouched and exactly one node is appended. -/
theorem binFrame (h : Heap) (v : ℚ) (a : Nat)
    (fa : (Nat → ℚ) → (Nat → ℚ) → ℚ) (b : Nat)
    (fb : (Nat → ℚ) → (Nat → ℚ) → ℚ) (i : Nat) (hi : i < h.length) :
    getN (add_edge (add_edge (newVar h v).1 (newVar h v).2 a fa)
        (newVar h v).2 b fb) i = getN h i ∧
      (add_edge (add_edge (newVar h v).1 (newVar h v).2 a fa)
          (newVar h v).2 b fb).length = h.length + 1 := by
  simp only [newVar]
  constructor
  · rw [getN_add_edge_ne _ _ _ _ _ (Nat.ne_of_lt hi),
      getN_add_edge_ne _ _ _ _ _ (Nat.ne_of_lt hi)]
    exact getN_newVar_lt h v i hi
  · rw [length_add_edge, length_add_edge]
    simp

/-- Frame property of the common shape of the unary graph builders. -/
theorem unFrame (h : Heap) (v : ℚ) (a : Nat)
    (fa : (Nat → ℚ) → (Nat → ℚ) → ℚ) (i : Nat) (hi : i < h.length) :
    getN (add_edge (newVar h v).1 (newVar h v).2 a fa) i = getN h i ∧
      (add_edge (newVar h v).1 (newVar h v).2 a fa).length = h.length + 1 := by
  simp only [newVar]
  constructor
  · rw [getN_add_edge_ne _ _ _ _ _ (Nat.ne_of_lt hi)]
    exact getN_newVar_lt h v i hi
  · rw [length_add_edge]
    simp

/-- C6: every graph-builder operation is pure with respect to its inputs:
every already-existing node (in particular every operand) keeps its value,
gradient and edge list unchanged, and the builder only appends one fresh
result node, whose index it returns. -/
theorem c6_builders_pure (M : MathFns) (h : Heap) (a b : Nat) (n : ℚ)
    (i : Nat) (hi : i < h.length) :
    (getN (op_add h a b).1 i = getN h i ∧
      (op_add h a b).1.length = h.length + 1 ∧ (op_add h a b).2 = h.length) ∧
    (getN (op_sub h a b).1 i = getN h i ∧
      (op_sub h a b).1.length = h.length + 1 ∧ (op_sub h a b).2 = h.length) ∧
    (getN (op_mul h a b).1 i = getN h i ∧
      (op_mul h a b).1.length = h.length + 1 ∧ (op_mul h a b).2 = h.length) ∧
    (getN (op_div h a b).1 i = getN h i ∧
      (op_div h a b).1.length = h.length + 1 ∧ (op_div h a b).2 = h.length) ∧
    (getN (op_neg h a).1 i = getN h i ∧
      (op_neg h a).1.length = h.length + 1 ∧ (op_neg h a).2 = h.length) ∧
    (getN (op_pow M h a n).1 i = getN h i ∧
      (op_pow M h a n).1.length = h.length + 1 ∧
      (op_pow M h a n).2 = h.length) ∧
    (getN (op_sin M h a).1 i = getN h i ∧
      (op_sin M h a).1.length = h.length + 1 ∧ (op_sin M h a).2 = h.length) ∧
    (getN (op_cos M h a).1 i = getN h i ∧
      (op_cos M h a).1.length = h.length + 1 ∧ (op_cos M h a).2 = h.length) ∧
    (getN (op_exp M h a).1 i = getN h i ∧
      (op_exp M h a).1.length = h.length + 1 ∧ (op_exp M h a).2 = h.length) ∧
    (getN (op_log M h a).1 i = getN h i ∧
      (op_log M h a).1.length = h.length + 1 ∧ (op_log M h a).2 = h.length) :=
  ⟨⟨(binFrame h _ a _ b _ i hi).1, (binFrame h _ a _ b _ i hi).2, rfl⟩,
   ⟨(binFrame h _ a _ b _ i hi).1, (binFrame h _ a _ b _ i hi).2, rfl⟩,
   ⟨(binFrame h _ a _ b _ i hi).1, (binFrame h _ a _ b _ i hi).2, rfl⟩,
   ⟨(binFrame h _ a _ b _ i hi).1, (binFrame h _ a _ b _ i hi).2, rfl⟩,
   ⟨(unFrame h _ a _ i hi).1, (unFrame h _ a _ i hi).2, rfl⟩,
   ⟨(unFrame h _ a _ i hi).1, (unFrame h _ a _ i hi).2, rfl⟩,
   ⟨(unFrame h _ a _ i hi).1, (unFrame h _ a _ i hi).2, rfl⟩,
   ⟨(unFrame h _ a _ i hi).1, (unFrame h _ a _ i hi).2, rfl⟩,
   ⟨(unFrame h _ a _ i hi).1, (unFrame h _ a _ i hi).2, rfl⟩,
   ⟨(unFrame h _ a _ i hi).1, (unFrame h _ a _ i hi).2, rfl⟩⟩

/-- Witness for C6 at a concrete heap: the heap holding `leaf 5`, operand
indices 0, and node 0 existing (`0 < 1`). -/
theorem c6_builders_pure_witness :
    0 < (leaf [] 5).1.length ∧
      (getN (op_add (leaf [] 5).1 0 0).1 0 = getN (leaf [] 5).1 0 ∧
        (op_add (leaf [] 5).1 0 0).1.length = (leaf [] 5).1.length + 1 ∧
        (op_add (leaf [] 5).1 0 0).2 = (leaf [] 5).1.length) :=
  ⟨by decide,
    (c6_builders_pure ⟨id, id, id, id, fun x _ => x⟩ (leaf [] 5).1 0 0 1 0
      (by decide)).1⟩

/-- C1: for `x = leaf(2)`, `y = leaf(3)`, `f = mul(add(x, y), x)`, the
value of `f` is 10, and after `backward(f)` the gradients of `x` and `y`
are 7 and 2 respectively. -/
theorem c1_composite_example :
    (getN exG1 3).val = 10 ∧
    (getN (backward exG1 3) 0).grad = 7 ∧
    (getN (backward exG1 3) 1).grad = 2 := by decide

/-- C2: for `x = leaf(3)` and `y = mul(x, x)` (the same node as both
operands), the value of `y` is 9, and after `backward(y)` the gradient of
`x` is 6: both edges targeting the shared node contribute and their
contributions sum. -/
theorem c2_shared_node_accumulation :
    (getN exG2 1).val = 9 ∧
    (getN (backward exG2 1) 0).grad = 6 := by decide

/-- C10: a second `backward(f)` without `zero_grad` accumulates into the
operand gradients but re-assigns the root seed: for `x = leaf(2)`,
`y = leaf(3)`, `f = mul(x, y)`, two consecutive `backward(f)` calls leave
`x.grad = 6`, `y.grad = 4` and `f.grad = 1`. -/
theorem c10_double_backward :
    (getN (backward (backward exG4 2) 2) 0).grad = 6 ∧
    (getN (backward (backward exG4 2) 2) 1).grad = 4 ∧
    (getN (backward (backward exG4 2) 2) 2).grad = 1 := by decide

set_option maxHeartbeats 4000000 in
/-- C8: for leaves `a = leaf va`, `b = leaf vb` with `vb ≠ 0` and
`f = div(a, b)`: the value of `f` is `va / vb`, and after `backward(f)`
the gradient of `a` is `1 / vb` and the gradient of `b` is
`-va / (vb * vb)`. -/
theorem c8_quotient_rule (va vb : ℚ) (hb : vb ≠ 0) :
    (getN (divG va vb) 2).val = va / vb ∧
    (getN (backward (divG va vb) 2) 0).grad = 1 / vb ∧
    (getN (backward (divG va vb) 2) 1).grad = (-va) / (vb * vb) := by
  refine ⟨rfl, ?_, ?_⟩
  · have e : (getN (backward (divG va vb) 2) 0).grad = 0 + 1 / vb := rfl
    rw [e, zero_add]
  · have e : (getN (backward (divG va vb) 2) 1).grad
        = 0 + 1 * ((-va) / (vb * vb)) := rfl
    rw [e, zero_add, one_mul]

/-- Witness for C8 at `a = leaf 4`, `b = leaf 2`: the divisor is nonzero
and the gradients are `a.grad = 0.5` and `b.grad = -1`. -/
theorem c8_quotient_rule_witness :
    (2 : ℚ) ≠ 0 ∧
    (getN (backward (divG 4 2) 2) 0).grad = 0.5 ∧
    (getN (backward (divG 4 2) 2) 1).grad = -1 :=
  ⟨by decide,
   by rw [(c8_quotient_rule 4 2 (by decide)).2.1]; decide,
   by rw [(c8_quotient_rule 4 2 (by decide)).2.2]; decide⟩

/-- C3 as stated is false on the code: in `exG3` node 1 (`neg(x)`) is a
consumer of node 0 (`x`), both are in the order produced by the
topological orderer, but the consumer does NOT appear strictly before its
operand in that (post) order — it appears strictly after it. -/
theorem c3_consumer_before_counterexample :
    (∃ e ∈ nodeEdges exG3 1, e.input = 0) ∧
    1 ∈ topo_order exG3 1 ∧ 0 ∈ topo_order exG3 1 ∧
    ¬ (topo_order exG3 1).indexOf 1 < (topo_order exG3 1).indexOf 0 := by
  decide

/-- One public API call never changes the value of an already-existing
node, and never shrinks the heap. -/
theorem applyOp_val (M : MathFns) (h : Heap) (c : OpCall) (i : Nat)
    (hi : i < h.length) :
    (getN (applyOp M h c) i).val = (getN h i).val ∧
      i < (applyOp M h c).length := by
  cases c with
  | mkLeaf v =>
    simp only [applyOp, leaf]
    refine ⟨?_, ?_⟩
    · rw [getN_newVar_lt h v i hi]
    · rw [length_newVar]
      omega
  | callAdd a b =>
    simp only [applyOp, op_add]
    refine ⟨?_, ?_⟩
    · rw [(binFrame h _ a _ b _ i hi).1]
    · rw [(binFrame h _ a _ b _ i hi).2]
      omega
  | callSub a b =>
    simp only [applyOp, op_sub]
    refine ⟨?_, ?_⟩
    · rw [(binFrame h _ a _ b _ i hi).1]
    · rw [(binFrame h _ a _ b _ i hi).2]
      omega
  | callMul a b =>
    simp only [applyOp, op_mul]
    refine ⟨?_, ?_⟩
    · rw [(binFrame h _ a _ b _ i hi).1]
    · rw [(binFrame h _ a _ b _ i hi).2]
      omega
  | callDiv a b =>
    simp only [applyOp, op_div]
    refine ⟨?_, ?_⟩
    · rw [(binFrame h _ a _ b _ i hi).1]
    · rw [(binFrame h _ a _ b _ i hi).2]
      omega
  | callNeg a =>
    simp only [applyOp, op_neg]
    refine ⟨?_, ?_⟩
    · rw [(unFrame h _ a _ i hi).1]
    · rw [(unFrame h _ a _ i hi).2]
      omega
  | callPow a n =>
    simp only [applyOp, op_pow]
    refine ⟨?_, ?_⟩
    · rw [(unFrame h _ a _ i hi).1]
    · rw [(unFrame h _ a _ i hi).2]
      omega
  | callSin a =>
    simp only [applyOp, op_sin]
    refine ⟨?_, ?_⟩
    · rw [(unFrame h _ a _ i hi).1]
    · rw [(unFrame h _ a _ i hi).2]
      omega
  | callCos a =>
    simp only [applyOp, op_cos]
    refine ⟨?_, ?_⟩
    · rw [(unFrame h _ a _ i hi).1]
    · rw [(unFrame h _ a _ i hi).2]
      omega
  | callExp a =>
    simp only [applyOp, op_exp]
    refine ⟨?_, ?_⟩
    · rw [(unFrame h _ a _ i hi).1]
    · rw [(unFrame h _ a _ i hi).2]
      omega
  | callLog a =>
    simp only [applyOp, op_log]
    refine ⟨?_, ?_⟩
    · rw [(unFrame h _ a _ i hi).1]
    · rw [(unFrame h _ a _ i hi).2]
      omega
  | callBackward root =>
    have p := presVE_backward h root
    simp only [applyOp]
    refine ⟨(p.2 i).1, ?_⟩
    rw [p.1]
    exact hi
  | callZeroGrad root =>
    have p := presVE_zero_grad h root
    simp only [applyOp]
    refine ⟨(p.2 i).1, ?_⟩
    rw [p.1]
    exact hi

/-- C7: a node's value is immutable once the node exists: no sequence of
public operations (graph builders, `backward`, `zero_grad`) ever changes
the value of an already-existing node. -/
theorem c7_value_immutable (M : MathFns) (cs : List OpCall) :
    ∀ (h : Heap) (i : Nat), i < h.length →
      (getN (applyOps M h cs) i).val = (getN h i).val := by
  induction cs with
  | nil =>
    intro h i _
    rfl
  | cons c cs ih =>
    intro h i hi
    have hc := applyOp_val M h c i hi
    calc (getN (applyOps M h (c :: cs)) i).val
        = (getN (applyOps M (applyOp M h c) cs) i).val := rfl
      _ = (getN (applyOp M h c) i).val := ih _ i hc.2
      _ = (getN h i).val := hc.1

/-- Witness for C7: a concrete call sequence (builder, `backward`,
`zero_grad`) over the heap holding `leaf 7` leaves the value of node 0
unchanged. -/
theorem c7_value_immutable_witness :
    0 < (leaf [] 7).1.length ∧
      (getN (applyOps ⟨id, id, id, id, fun x _ => x⟩ (leaf [] 7).1
          [OpCall.callAdd 0 0, OpCall.callBackward 1, OpCall.callZeroGrad 1])
        0).val = (getN (leaf [] 7).1 0).val :=
  ⟨by decide,
   c7_value_immutable ⟨id, id, id, id, fun x _ => x⟩
     [OpCall.callAdd 0 0, OpCall.callBackward 1, OpCall.callZeroGrad 1]
     (leaf [] 7).1 0 (by decide)⟩

/-- Reachability is transitive. -/
theorem reach_trans {h : Heap} {a b c : Nat} (h1 : Reach h a b)
    (h2 : Reach h b c) : Reach h a c := by
  induction h2 with
  | refl => exact h1
  | tail _ he ih => exact Reach.tail ih he

/-- On a well-formed heap, reachable nodes have index at most the root
and lie inside the heap. -/
theorem reach_le {h : Heap} {r j : Nat} (hwf : WF h) (hr : r < h.length)
    (hreach : Reach h r j) : j ≤ r ∧ j < h.length := by
  induction hreach with
  | refl => exact ⟨Nat.le_refl _, hr⟩
  | tail _ he ih =>
    have hlt := hwf _ ih.2 _ he
    exact ⟨Nat.le_of_lt (Nat.lt_of_lt_of_le hlt ih.1), Nat.lt_trans hlt ih.2⟩

/-- A direct edge gives one step of reachability. -/
theorem reach_of_consumer {h : Heap} {j n : Nat}
    (hc : ∃ e ∈ nodeEdges h j, e.input = n) : Reach h j n := by
  obtain ⟨e, he, rfl⟩ := hc
  exact Reach.tail (Reach.refl j) he

theorem prefClosed_nil (h : Heap) : PrefClosed h [] := by
  intro l1 c l2 heq
  exact absurd heq (by simp)

/-- Appending a node whose operands are already in the list preserves
dependency-closedness. -/
theorem prefClosed_snoc {h : Heap} {L : List Nat} {c : Nat}
    (hL : PrefClosed h L) (hc : ∀ e ∈ nodeEdges h c, e.input ∈ L) :
    PrefClosed h (L ++ [c]) := by
  intro l1 x l2 heq e he
  rcases l2.eq_nil_or_concat with rfl | ⟨l2', a, rfl⟩
  · obtain ⟨h1, h2⟩ := List.append_inj' heq rfl
    obtain rfl : c = x := by simpa using h2
    subst h1
    exact hc e he
  · have heq' : L ++ [c] = (l1 ++ x :: l2') ++ [a] := by
      rw [heq]
      simp
    obtain ⟨h1, h2⟩ := List.append_inj' heq' rfl
    exact hL l1 x l2' h1 e he

/-- In a dependency-closed list, the operands of every member are
members. -/
theorem prefClosed_mem {h : Heap} {L : List Nat} {c : Nat}
    (hL : PrefClosed h L) (hc : c ∈ L) :
    ∀ e ∈ nodeEdges h c, e.input ∈ L := by
  obtain ⟨l1, l2, rfl⟩ := List.append_of_mem hc
  intro e he
  exact List.mem_append_left _ (hL l1 c l2 rfl e he)

/-- Main invariant lemma for `Var::topo_sort` on a well-formed heap: with
enough fuel, starting inside the heap, under the state invariant and the
grey bound (every visited-but-unordered node is above `i`), the
postcondition `TopoPost` holds. -/
theorem topo_sort_post (h : Heap) (hwf : WF h) :
    ∀ fuel i o v, i < fuel → i < h.length → TopoInv h o v →
      (∀ x ∈ v, x ∉ o → i < x) →
      TopoPost h i o v (topo_sort h fuel i (o, v)) := by
  intro fuel
  induction fuel with
  | zero =>
    intro i o v hif
    exact absurd hif (Nat.not_lt_zero i)
  | succ f ih =>
    have hQ : ∀ es b o v, b ≤ f → b ≤ h.length → (∀ e ∈ es, e.input < b) →
        TopoInv h o v → (∀ x ∈ v, x ∉ o → b ≤ x) →
        TopoListPost h b es o v (topo_sortList h f es (o, v)) := by
      intro es
      induction es with
      | nil =>
        intro b o v _ _ _ inv _
        exact ⟨[], by simp [topo_sortList], by simp [topo_sortList],
          by simp, by simp, by simp,
          by simpa [topo_sortList] using inv.1,
          by simpa [topo_sortList] using inv.2.2, by simp⟩
      | cons e es ihe =>
        intro b o v hbf hbl hes inv hgb
        have hein : e.input < b := hes e (List.mem_cons_self e es)
        have h1 := ih e.input o v (Nat.lt_of_lt_of_le hein hbf)
          (Nat.lt_of_lt_of_le hein hbl) inv
          (fun x hx hxo => Nat.lt_of_lt_of_le hein (hgb x hx hxo))
        obtain ⟨d1, hr1, hm1, hf1, hle1, hre1, hnd1, hpc1, hin1⟩ := h1
        rw [hr1] at hnd1 hpc1 hin1
        have hpair : topo_sort h f e.input (o, v)
            = (o ++ d1, (topo_sort h f e.input (o, v)).2) := by
          rw [← hr1]
        have hstep : topo_sortList h f (e :: es) (o, v)
            = topo_sortList h f es
              (o ++ d1, (topo_sort h f e.input (o, v)).2) := by
          show topo_sortList h f es (topo_sort h f e.input (o, v)) = _
          rw [← hpair]
        have hsub : ∀ x ∈ o ++ d1, x ∈ (topo_sort h f e.input (o, v)).2 := by
          intro x hx
          rcases List.mem_append.mp hx with hxo | hxd
          · exact (hm1 x).mpr (Or.inl (inv.2.1 x hxo))
          · exact (hm1 x).mpr (Or.inr hxd)
        have h2 := ihe b (o ++ d1) (topo_sort h f e.input (o, v)).2 hbf hbl
          (fun e' he' => hes e' (List.mem_cons_of_mem e he'))
          ⟨hnd1, hsub, hpc1⟩
          (fun x hx hxo => by
            rcases (hm1 x).mp hx with hxv | hxd
            · exact hgb x hxv (fun hxo2 =>
                hxo (List.mem_append_left d1 hxo2))
            · exact absurd (List.mem_append_right o hxd) hxo)
        obtain ⟨d2, hr2, hm2, hf2, hlt2, hre2, hnd2, hpc2, hin2⟩ := h2
        rw [hstep]
        refine ⟨d1 ++ d2, ?_, ?_, ?_, ?_, ?_, hnd2, hpc2, ?_⟩
        · rw [hr2, List.append_assoc]
        · intro x
          rw [hm2 x, hm1 x, List.mem_append]
          tauto
        · intro x hx
          rcases List.mem_append.mp hx with hxd | hxd
          · exact hf1 x hxd
          · exact fun hxv => hf2 x hxd ((hm1 x).mpr (Or.inl hxv))
        · intro x hx
          rcases List.mem_append.mp hx with hxd | hxd
          · exact Nat.lt_of_le_of_lt (hle1 x hxd) hein
          · exact hlt2 x hxd
        · intro x hx
          rcases List.mem_append.mp hx with hxd | hxd
          · exact ⟨e, List.mem_cons_self e es, hre1 x hxd⟩
          · obtain ⟨e', he', hre⟩ := hre2 x hxd
            exact ⟨e', List.mem_cons_of_mem e he', hre⟩
        · intro e' he'
          rcases List.mem_cons.mp he' with rfl | he'
          · rw [hr2]
            exact List.mem_append_left d2 hin1
          · exact hin2 e' he'
    intro i o v hif hil inv hgrey
    simp only [topo_sort]
    by_cases hm : i ∈ v
    · simp only [hm, if_true]
      have hio : i ∈ o := by
        by_contra hio
        exact Nat.lt_irrefl i (hgrey i hm hio)
      exact ⟨[], by simp, by simp, by simp, by simp, by simp,
        by simpa using inv.1, by simpa using inv.2.2, by simpa using hio⟩
    · simp only [hm, if_false]
      have hfold : (nodeEdges h i).foldl (fun t e => topo_sort h f e.input t)
          (o, i :: v) = topo_sortList h f (nodeEdges h i) (o, i :: v) := rfl
      rw [hfold]
      have hQi := hQ (nodeEdges h i) i o (i :: v) (Nat.lt_succ_iff.mp hif)
        (Nat.le_of_lt hil) (hwf i hil)
        ⟨inv.1, fun x hx => List.mem_cons_of_mem i (inv.2.1 x hx), inv.2.2⟩
        (fun x hx hxo => by
          rcases List.mem_cons.mp hx with rfl | hxv
          · exact Nat.le_refl x
          · exact Nat.le_of_lt (hgrey x hxv hxo))
      obtain ⟨d2, hr2, hm2, hf2, hlt2, hre2, hnd2, hpc2, hin2⟩ := hQi
      rw [hr2] at hnd2 hpc2 hin2
      have hio : i ∉ o := fun hio => hm (inv.2.1 i hio)
      have hid2 : i ∉ d2 := fun hid =>
        hf2 i hid (List.mem_cons_self i v)
      refine ⟨d2 ++ [i], ?_, ?_, ?_, ?_, ?_, ?_, ?_, ?_⟩
      · show (topo_sortList h f (nodeEdges h i) (o, i :: v)).1 ++ [i]
          = o ++ (d2 ++ [i])
        rw [hr2, List.append_assoc]
      · intro x
        show x ∈ (topo_sortList h f (nodeEdges h i) (o, i :: v)).2 ↔ _
        rw [hm2 x]
        simp only [List.mem_cons, List.mem_append, List.mem_singleton]
        tauto
      · intro x hx
        rcases List.mem_append.mp hx with hxd | hxd
        · exact fun hxv => hf2 x hxd (List.mem_cons_of_mem i hxv)
        · obtain rfl : x = i := List.mem_singleton.mp hxd
          exact hm
      · intro x hx
        rcases List.mem_append.mp hx with hxd | hxd
        · exact Nat.le_of_lt (hlt2 x hxd)
        · obtain rfl : x = i := List.mem_singleton.mp hxd
          exact Nat.le_refl x
      · intro x hx
        rcases List.mem_append.mp hx with hxd | hxd
        · obtain ⟨e, he, hre⟩ := hre2 x hxd
          exact reach_trans (Reach.tail (Reach.refl i) he) hre
        · obtain rfl : x = i := List.mem_singleton.mp hxd
          exact Reach.refl x
      · show ((topo_sortList h f (nodeEdges h i) (o, i :: v)).1 ++ [i]).Nodup
        rw [hr2]
        have hni : i ∉ o ++ d2 := fun hmem => by
          rcases List.mem_append.mp hmem with hio2 | hid
          · exact hio hio2
          · exact hid2 hid
        exact List.nodup_append.mpr ⟨hnd2, List.nodup_singleton i,
          List.disjoint_singleton.mpr hni⟩
      · show PrefClosed h
          ((topo_sortList h f (nodeEdges h i) (o, i :: v)).1 ++ [i])
        rw [hr2]
        exact prefClosed_snoc hpc2 hin2
      · show i ∈ (topo_sortList h f (nodeEdges h i) (o, i :: v)).1 ++ [i]
        exact List.mem_append_right _ (List.mem_singleton_self i)

/-- Specification of the order computed by `Var::backward`'s topological
sort on a well-formed heap: no duplicates, dependency-closed, contains
the root, and contains only nodes reachable from the root. -/
theorem topo_order_spec (h : Heap) (root : Nat) (hwf : WF h)
    (hroot : root < h.length) :
    (topo_order h root).Nodup ∧ PrefClosed h (topo_order h root) ∧
      root ∈ topo_order h root ∧ ∀ x ∈ topo_order h root, Reach h root x := by
  have hp := topo_sort_post h hwf (h.length + 1) root [] []
    (by omega) hroot ⟨List.nodup_nil, by simp, prefClosed_nil h⟩ (by simp)
  obtain ⟨d, hr, _, _, _, hre, hnd, hpc, hin⟩ := hp
  refine ⟨hnd, hpc, hin, ?_⟩
  intro x hx
  have hxd : x ∈ d := by
    have : x ∈ [] ++ d := hr ▸ hx
    simpa using this
  exact hre x hxd

/-- Every node reachable from the root occurs in the topological order. -/
theorem topo_order_complete (h : Heap) (root : Nat) (hwf : WF h)
    (hroot : root < h.length) :
    ∀ j, Reach h root j → j ∈ topo_order h root := by
  intro j hj
  induction hj with
  | refl => exact (topo_order_spec h root hwf hroot).2.2.1
  | tail _ he ih =>
    exact prefClosed_mem (topo_order_spec h root hwf hroot).2.1 ih _ he

/-- In a duplicate-free list, any element of the part before `x` has a
strictly smaller index than `x`. -/
theorem indexOf_before (x : Nat) :
    ∀ (m1 m2 : List Nat), (m1 ++ x :: m2).Nodup →
      ∀ y ∈ m1, (m1 ++ x :: m2).indexOf y < (m1 ++ x :: m2).indexOf x := by
  intro m1
  induction m1 with
  | nil =>
    intro m2 _ y hy
    exact absurd hy (List.not_mem_nil y)
  | cons a t ih =>
    intro m2 hnd y hy
    have hcons : (a :: t) ++ x :: m2 = a :: (t ++ x :: m2) := rfl
    rw [hcons] at hnd
    have hna : a ∉ t ++ x :: m2 := (List.nodup_cons.mp hnd).1
    have hnd' : (t ++ x :: m2).Nodup := (List.nodup_cons.mp hnd).2
    have hax : x ≠ a := by
      intro hxa
      subst hxa
      exact hna (List.mem_append_right t (List.mem_cons_self x m2))
    rcases List.mem_cons.mp hy with rfl | hyt
    · rw [hcons, List.indexOf_cons_self, List.indexOf_cons_ne _ (Ne.symm hax)]
      exact Nat.succ_pos _
    · have hya : y ≠ a := by
        intro hya
        subst hya
        exact hna (List.mem_append_left _ hyt)
      rw [hcons, List.indexOf_cons_ne _ (Ne.symm hya),
        List.indexOf_cons_ne _ (Ne.symm hax)]
      exact Nat.succ_lt_succ (ih m2 hnd' y hyt)

/-- C4: on a well-formed (DAG-by-construction) heap, the topological
order from a root contains each reachable node exactly once, and every
node in the order appears after all of its operands (the targets of its
backward edges). -/
theorem c4_topo_order_exact (h : Heap) (root j : Nat) (hwf : WF h)
    (hroot : root < h.length) (hj : Reach h root j) :
    (topo_order h root).count j = 1 ∧ PrefClosed h (topo_order h root) := by
  have hs := topo_order_spec h root hwf hroot
  exact ⟨List.count_eq_one_of_mem hs.1
    (topo_order_complete h root hwf hroot j hj), hs.2.1⟩

/-- Witness for C4 on the composite example graph with root 3 and the
reachable node 3 itself. -/
theorem c4_topo_order_exact_witness :
    (WF exG1 ∧ 3 < exG1.length ∧ Reach exG1 3 3) ∧
      (topo_order exG1 3).count 3 = 1 ∧ PrefClosed exG1 (topo_order exG1 3) :=
  ⟨⟨by decide, by decide, Reach.refl 3⟩,
   c4_topo_order_exact exG1 3 3 (by decide) (by decide) (Reach.refl 3)⟩

/-- C3 amended: on a well-formed heap, a consumer `c` of a node `n`
appears strictly AFTER `n` in the dependency-respecting (post) order
produced by the topological orderer — not strictly before it, as the
claim states — and hence strictly before `n` in the reversed order that
`backward` processes. -/
theorem c3_consumer_after_in_postorder (h : Heap) (root c n : Nat)
    (hwf : WF h) (hroot : root < h.length)
    (hc : c ∈ topo_order h root) (hcons : ∃ e ∈ nodeEdges h c, e.input = n) :
    n ∈ topo_order h root ∧
      (topo_order h root).indexOf n < (topo_order h root).indexOf c ∧
      (topo_order h root).reverse.indexOf c
        < (topo_order h root).reverse.indexOf n := by
  obtain ⟨e, he, rfl⟩ := hcons
  have hs := topo_order_spec h root hwf hroot
  obtain ⟨l1, l2, hL⟩ := List.append_of_mem hc
  have hn1 : e.input ∈ l1 := hs.2.1 l1 c l2 hL e he
  have hnd : (topo_order h root).Nodup := hs.1
  refine ⟨hL ▸ List.mem_append_left _ hn1, ?_, ?_⟩
  · rw [hL] at hnd ⊢
    exact indexOf_before c l1 l2 hnd e.input hn1
  · obtain ⟨p, q, hl1r⟩ := List.append_of_mem (List.mem_reverse.mpr hn1)
    have hLrev : (topo_order h root).reverse
        = (l2.reverse ++ c :: p) ++ e.input :: q := by
      rw [hL]
      simp [hl1r, List.append_assoc]
    have hndrev : (topo_order h root).reverse.Nodup := List.nodup_reverse.mpr hnd
    rw [hLrev] at hndrev ⊢
    exact indexOf_before e.input (l2.reverse ++ c :: p) q hndrev c
      (List.mem_append_right _ (List.mem_cons_self c p))

/-- Witness for the amended C3 on the composite example graph: node 2
(`add(x, y)`) is a consumer of node 0 (`x`), both in the order from root
3. -/
theorem c3_consumer_after_in_postorder_witness :
    (WF exG1 ∧ 3 < exG1.length ∧ 2 ∈ topo_order exG1 3 ∧
        (∃ e ∈ nodeEdges exG1 2, e.input = 0)) ∧
      0 ∈ topo_order exG1 3 ∧
      (topo_order exG1 3).indexOf 0 < (topo_order exG1 3).indexOf 2 ∧
      (topo_order exG1 3).reverse.indexOf 2
        < (topo_order exG1 3).reverse.indexOf 0 :=
  ⟨⟨by decide, by decide, by decide, by decide⟩,
   c3_consumer_after_in_postorder exG1 3 2 0 (by decide) (by decide)
     (by decide) (by decide)⟩

/-- Two nodes with the same fields are equal. -/
theorem var_ext {a b : Var} (h1 : a.val = b.val) (h2 : a.grad = b.grad)
    (h3 : a.backward_edges = b.backward_edges) : a = b := by
  cases a
  cases b
  simp_all

/-- Two heaps with the same length and the same nodes are equal. -/
theorem heap_ext {h h' : Heap} (hlen : h.length = h'.length)
    (hget : ∀ j, getN h j = getN h' j) : h = h' := by
  apply List.ext_getElem?
  intro j
  by_cases hj : j < h.length
  · rw [getN_lt h j hj, getN_lt h' j (hlen ▸ hj), hget j]
  · rw [List.getElem?_eq_none (Nat.le_of_not_lt hj),
      List.getElem?_eq_none (hlen ▸ Nat.le_of_not_lt hj)]

/-- Reachability only depends on the edge structure. -/
theorem reach_congr {h h' : Heap}
    (he : ∀ j, nodeEdges h' j = nodeEdges h j) {a b : Nat} :
    Reach h' a b → Reach h a b := by
  intro r
  induction r with
  | refl => exact Reach.refl _
  | tail _ hme ih =>
    refine Reach.tail ih ?_
    rw [← he]
    exact hme

/-- Well-formedness transports along gradient-only rewrites. -/
theorem wf_presVE {h h' : Heap} (p : PresVE h h') (w : WF h) : WF h' := by
  intro i hi e he
  refine w i ?_ e ?_
  · rw [← p.1]
    exact hi
  · have hed : nodeEdges h' i = nodeEdges h i := (p.2 i).2
    rw [← hed]
    exact he

/-- Main invariant lemma for `Var::zero_grad_helper` on a heap whose
edge structure agrees with the well-formed ambient heap `h0`. -/
theorem zg_post (h0 : Heap) (hwf : WF h0) :
    ∀ fuel i st, i < fuel → i < h0.length →
      (∀ j, nodeEdges st.1 j = nodeEdges h0 j) → st.1.length = h0.length →
      ZgPost h0 i st (zero_grad_helper fuel i st) := by
  intro fuel
  induction fuel with
  | zero =>
    intro i st hif
    exact absurd hif (Nat.not_lt_zero i)
  | succ f ih =>
    have hZL : ∀ es b st, b ≤ f → b ≤ h0.length → (∀ e ∈ es, e.input < b) →
        (∀ j, nodeEdges st.1 j = nodeEdges h0 j) → st.1.length = h0.length →
        ZgListPost h0 es st (zero_grad_helperList f es st) := by
      intro es
      induction es with
      | nil =>
        intro b st _ _ _ _ _
        exact ⟨[], by simp [zero_grad_helperList], by simp, by simp,
          fun j => by simp [zero_grad_helperList], by simp, by simp⟩
      | cons e es ihe =>
        intro b st hbf hbl hes hedge hlen
        have hein : e.input < b := hes e (List.mem_cons_self e es)
        have h1 := ih e.input st (Nat.lt_of_lt_of_le hein hbf)
          (Nat.lt_of_lt_of_le hein hbl) hedge hlen
        obtain ⟨d1, hm1, hf1, hre1, hg1, hi1, hc1⟩ := h1
        have pe : PresVE st.1 (zero_grad_helper f e.input st).1 :=
          presVE_zero_grad_helper f e.input st
        have hedge1 : ∀ j,
            nodeEdges (zero_grad_helper f e.input st).1 j = nodeEdges h0 j :=
          fun j => ((pe.2 j).2).trans (hedge j)
        have hlen1 : (zero_grad_helper f e.input st).1.length = h0.length :=
          pe.1.trans hlen
        have h2 := ihe b (zero_grad_helper f e.input st) hbf hbl
          (fun e' he' => hes e' (List.mem_cons_of_mem e he')) hedge1 hlen1
        obtain ⟨d2, hm2, hf2, hre2, hg2, hi2, hc2⟩ := h2
        have hstep : zero_grad_helperList f (e :: es) st
            = zero_grad_helperList f es (zero_grad_helper f e.input st) := rfl
        rw [hstep]
        refine ⟨d1 ++ d2, ?_, ?_, ?_, ?_, ?_, ?_⟩
        · intro x
          rw [hm2 x, hm1 x, List.mem_append]
          tauto
        · intro x hx
          rcases List.mem_append.mp hx with hxd | hxd
          · exact hf1 x hxd
          · exact fun hxv => hf2 x hxd ((hm1 x).mpr (Or.inl hxv))
        · intro x hx
          rcases List.mem_append.mp hx with hxd | hxd
          · exact ⟨e, List.mem_cons_self e es, hre1 x hxd⟩
          · obtain ⟨e', he', hre⟩ := hre2 x hxd
            exact ⟨e', List.mem_cons_of_mem e he', hre⟩
        · intro j
          rw [hg2 j, hg1 j]
          by_cases hd1 : j ∈ d1 <;> by_cases hd2 : j ∈ d2 <;>
            simp [hd1, hd2]
        · intro e' he'
          rcases List.mem_cons.mp he' with rfl | he'
          · exact (hm2 e'.input).mpr (Or.inl hi1)
          · exact hi2 e' he'
        · intro x hx
          rcases List.mem_append.mp hx with hxd | hxd
          · exact fun e' he' => (hm2 e'.input).mpr (Or.inl (hc1 x hxd e' he'))
          · exact hc2 x hxd
    intro i st hif hil hedge hlen
    simp only [zero_grad_helper]
    by_cases hm : i ∈ st.2
    · simp only [hm, if_true]
      exact ⟨[], by simp, by simp, by simp, fun j => by simp, hm, by simp⟩
    · simp only [hm, if_false]
      have pe1 : PresVE st.1 (updNode st.1 i fun n => { n with grad := 0 }) :=
        presVE_updNode st.1 i (fun n => { n with grad := 0 })
          (fun _ => rfl) (fun _ => rfl)
      have hedge1 : ∀ j,
          nodeEdges (updNode st.1 i fun n => { n with grad := 0 }) j
            = nodeEdges h0 j :=
        fun j => ((pe1.2 j).2).trans (hedge j)
      have hlen1 : (updNode st.1 i fun n => { n with grad := 0 }).length
          = h0.length := pe1.1.trans hlen
      have hfold :
          (nodeEdges (updNode st.1 i fun n => { n with grad := 0 }) i).foldl
            (fun t e => zero_grad_helper f e.input t)
            (updNode st.1 i fun n => { n with grad := 0 }, i :: st.2)
          = zero_grad_helperList f
            (nodeEdges (updNode st.1 i fun n => { n with grad := 0 }) i)
            (updNode st.1 i fun n => { n with grad := 0 }, i :: st.2) := rfl
      rw [hfold]
      have hesb : ∀ e ∈
          nodeEdges (updNode st.1 i fun n => { n with grad := 0 }) i,
          e.input < i := by
        intro e he
        rw [hedge1 i] at he
        exact hwf i hil e he
      have hZ := hZL (nodeEdges (updNode st.1 i fun n => { n with grad := 0 }) i)
        i (updNode st.1 i fun n => { n with grad := 0 }, i :: st.2)
        (Nat.lt_succ_iff.mp hif) (Nat.le_of_lt hil) hesb hedge1 hlen1
      obtain ⟨d1, hm1, hf1, hre1, hg1, hi1, hc1⟩ := hZ
      refine ⟨i :: d1, ?_, ?_, ?_, ?_, ?_, ?_⟩
      · intro x
        rw [hm1 x]
        simp only [List.mem_cons]
        tauto
      · intro x hx
        rcases List.mem_cons.mp hx with rfl | hxd
        · exact hm
        · exact fun hxv => hf1 x hxd (List.mem_cons_of_mem i hxv)
      · intro x hx
        rcases List.mem_cons.mp hx with rfl | hxd
        · exact Reach.refl x
        · obtain ⟨e, he, hre⟩ := hre1 x hxd
          rw [hedge1 i] at he
          exact reach_trans (Reach.tail (Reach.refl i) he) hre
      · intro j
        rw [hg1 j]
        by_cases hji : j = i
        · subst hji
          have hj0 : (getN (updNode st.1 j fun n => { n with grad := 0 })
              j).grad = 0 := by
            rw [getN_updNode_self st.1 j _ (hlen ▸ hil)]
        
          by_cases hd1 : j ∈ d1 <;> simp [hd1, hj0]
        · have hjne : getN (updNode st.1 i fun n => { n with grad := 0 }) j
              = getN st.1 j := getN_updNode_ne st.1 i j _ hji
          by_cases hd1 : j ∈ d1 <;> simp [hd1, hjne, hji]
      · exact (hm1 i).mpr (Or.inl (List.mem_cons_self i st.2))
      · intro x hx
        rcases List.mem_cons.mp hx with rfl | hxd
        · intro e he
          refine hi1 e ?_
          rw [hedge1 x]
          exact he
        · exact hc1 x hxd

/-- Specification of `Var::zero_grad` on a well-formed heap: it zeroes the
gradient of exactly the reachable nodes and leaves every unreachable node
completely untouched. -/
theorem zero_grad_spec (h : Heap) (root : Nat) (hwf : WF h)
    (hroot : root < h.length) :
    (∀ j, Reach h root j → (getN (zero_grad h root) j).grad = 0) ∧
      ∀ j, ¬ Reach h root j → getN (zero_grad h root) j = getN h j := by
  have hz := zg_post h hwf (h.length + 1) root (h, []) (by omega) hroot
    (fun _ => rfl) rfl
  obtain ⟨d, hm, _, hre, hg, hiv, hc⟩ := hz
  have hcomplete : ∀ j, Reach h root j → j ∈ d := by
    intro j hj
    induction hj with
    | refl => exact ((hm root).mp hiv).resolve_left (List.not_mem_nil root)
    | tail _ he ih =>
      exact ((hm _).mp (hc _ ih _ he)).resolve_left (List.not_mem_nil _)
  constructor
  · intro j hj
    have := hg j
    rw [if_pos (hcomplete j hj)] at this
    exact this
  · intro j hj
    have hjd : j ∉ d := fun hjd => hj (hre j hjd)
    have hgr := hg j
    rw [if_neg hjd] at hgr
    have pe : PresVE h (zero_grad h root) :=
      presVE_zero_grad h root
    have hgr2 : (getN (zero_grad h root) j).grad = (getN h j).grad := hgr
    exact var_ext (pe.2 j).1 hgr2 (pe.2 j).2

/-- A fold of edge applications that never targets `j` leaves node `j`
untouched. -/
theorem foldl_applyEdge_ne (j : Nat) :
    ∀ (es : List BackwardEdge) (H : Heap), (∀ e ∈ es, e.input ≠ j) →
      getN (es.foldl applyEdge H) j = getN H j := by
  intro es
  induction es with
  | nil =>
    intro H _
    rfl
  | cons e es ih =>
    intro H hne
    have h1 : getN (applyEdge H e) j = getN H j := by
      show getN (updNode H e.input fun n =>
        { n with grad := n.grad + e.grad_fn (valsOf H) (gradsOf H) }) j
        = getN H j
      exact getN_updNode_ne H e.input j _
        (Ne.symm (hne e (List.mem_cons_self e es)))
    calc getN ((e :: es).foldl applyEdge H) j
        = getN (es.foldl applyEdge (applyEdge H e)) j := rfl
      _ = getN (applyEdge H e) j :=
          ih _ (fun e' he' => hne e' (List.mem_cons_of_mem e he'))
      _ = getN H j := h1

/-- Processing a node none of whose edges (in the ambient edge structure)
targets `j` leaves node `j` untouched. -/
theorem processNode_ne (h0 H : Heap) (x j : Nat)
    (hE : nodeEdges H x = nodeEdges h0 x)
    (hx : ∀ e ∈ nodeEdges h0 x, e.input ≠ j) :
    getN (processNode H x) j = getN H j := by
  show getN ((getN H x).backward_edges.foldl applyEdge H) j = getN H j
  refine foldl_applyEdge_ne j _ H ?_
  intro e he
  refine hx e ?_
  rw [← hE]
  exact he

/-- Backpropagation (`Var::backward`) leaves every node not reachable from the root
completely untouched: it only writes the root seed and the targets of
edges of reachable nodes, all of which are reachable. -/
theorem backward_unreachable (h : Heap) (root j : Nat) (hwf : WF h)
    (hroot : root < h.length) (hj : ¬ Reach h root j) :
    getN (backward h root) j = getN h j := by
  have hjr : j ≠ root := fun hjr => hj (by rw [hjr]; exact Reach.refl root)
  have hseed : getN (updNode h root fun n => { n with grad := 1 }) j
      = getN h j := getN_updNode_ne h root j _ hjr
  have hgen : ∀ (l : List Nat), (∀ x ∈ l, Reach h root x) →
      ∀ H : Heap, (∀ k, nodeEdges H k = nodeEdges h k) →
        getN (l.foldl processNode H) j = getN H j := by
    intro l
    induction l with
    | nil =>
      intro _ H _
      rfl
    | cons x l ih =>
      intro hl H hE
      have hx : ∀ e ∈ nodeEdges h x, e.input ≠ j := by
        intro e he hej
        exact hj (hej ▸ Reach.tail (hl x (List.mem_cons_self x l)) he)
      calc getN ((x :: l).foldl processNode H) j
          = getN (l.foldl processNode (processNode H x)) j := rfl
        _ = getN (processNode H x) j :=
            ih (fun y hy => hl y (List.mem_cons_of_mem x hy)) _
              (fun k => (((presVE_processNode H x).2 k).2).trans (hE k))
        _ = getN H j := processNode_ne h H x j (hE x) hx
  show getN ((topo_order h root).reverse.foldl processNode
    (updNode h root fun n => { n with grad := 1 })) j = getN h j
  rw [hgen (topo_order h root).reverse
    (fun x hx =>
      (topo_order_spec h root hwf hroot).2.2.2 x (List.mem_reverse.mp hx))
    _
    (fun k => ((presVE_updNode h root (fun n => { n with grad := 1 })
      (fun _ => rfl) (fun _ => rfl)).2 k).2)]
  exact hseed

/-- C5 as stated ("for every graph") is false on the code: starting from
the API-reachable state `backward exG3 1` (the `neg(leaf 0)` graph after
one prior `backward` with no reset), node 0 is reachable from the root 1,
the claim's first `backward` leaves its gradient at -2 (the `+=`
accumulates into the stale -1), `zero_grad` then zeroes it, but the
subsequent `backward` leaves -1, not the -2 the first one produced. -/
theorem c5_reset_idempotence_counterexample :
    Reach (backward exG3 1) 1 0 ∧
      (getN (backward (backward exG3 1) 1) 0).grad = -2 ∧
      (getN (zero_grad (backward (backward exG3 1) 1) 1) 0).grad = 0 ∧
      (getN (backward (zero_grad (backward (backward exG3 1) 1) 1) 1)
        0).grad = -1 ∧
      ¬ (getN (backward (zero_grad (backward (backward exG3 1) 1) 1) 1)
            0).grad
        = (getN (backward (backward exG3 1) 1) 0).grad :=
  ⟨reach_of_consumer (by decide), by decide, by decide, by decide, by decide⟩

/-- C5 amended: on a well-formed heap all of whose gradients are 0 — the
state of a freshly built graph, the only state the counterexample above
allows — after `backward(f)` then `zero_grad(f)` every reachable node's
gradient is 0, and a subsequent `backward(f)` reproduces exactly the
gradient the first `backward(f)` produced.  (The proof shows more:
`zero_grad` restores the whole heap to its pre-`backward` state, so the
second run is literally the same computation.) -/
theorem c5_reset_idempotence (h : Heap) (root i : Nat) (hwf : WF h)
    (hroot : root < h.length)
    (h0 : ∀ j, j < h.length → (getN h j).grad = 0) (hi : Reach h root i) :
    (getN (zero_grad (backward h root) root) i).grad = 0 ∧
      (getN (backward (zero_grad (backward h root) root) root) i).grad
        = (getN (backward h root) i).grad := by
  have pe1 : PresVE h (backward h root) := presVE_backward h root
  have hwf1 : WF (backward h root) := wf_presVE pe1 hwf
  have hroot1 : root < (backward h root).length := by
    rw [pe1.1]
    exact hroot
  have htrans : ∀ j, Reach h root j → Reach (backward h root) root j :=
    fun j => reach_congr (fun k => ((pe1.2 k).2).symm)
  have hz := zero_grad_spec (backward h root) root hwf1 hroot1
  refine ⟨hz.1 i (htrans i hi), ?_⟩
  have h2eq : zero_grad (backward h root) root = h := by
    apply heap_ext
    · rw [(presVE_zero_grad (backward h root) root).1, pe1.1]
    · intro j
      by_cases hjr : Reach h root j
      · have hgz : (getN (zero_grad (backward h root) root) j).grad = 0 :=
          hz.1 j (htrans j hjr)
        have hg0 : (getN h j).grad = 0 := h0 j (reach_le hwf hroot hjr).2
        have pez : PresVE h (zero_grad (backward h root) root) :=
          pe1.trans (presVE_zero_grad (backward h root) root)
        refine var_ext ((pez.2 j).1).symm ?_ ((pez.2 j).2).symm |>.symm
        rw [hgz, hg0]
      · have hu1 : getN (zero_grad (backward h root) root) j
            = getN (backward h root) j :=
          hz.2 j (fun hr => hjr (reach_congr (fun k => (pe1.2 k).2) hr))
        have hu2 : getN (backward h root) j = getN h j :=
          backward_unreachable h root j hwf hroot hjr
        rw [hu1, hu2]
  rw [h2eq]

/-- Witness for C5 on the composite example graph (root 3, reachable node
3): the graph is well-formed, fresh (all gradients 0), and the reset and
re-run reproduce the gradient. -/
theorem c5_reset_idempotence_witness :
    (WF exG1 ∧ 3 < exG1.length ∧
        (∀ j, j < exG1.length → (getN exG1 j).grad = 0) ∧ Reach exG1 3 3) ∧
      (getN (zero_grad (backward exG1 3) 3) 3).grad = 0 ∧
      (getN (backward (zero_grad (backward exG1 3) 3) 3) 3).grad
        = (getN (backward exG1 3) 3).grad :=
  ⟨⟨by decide, by decide, by decide, Reach.refl 3⟩,
   c5_reset_idempotence exG1 3 3 (by decide) (by decide) (by decide)
     (Reach.refl 3)⟩

end Autodiff
